import Mathlib

/-!
Verification of the egide secrets-vault core against its specification.

The Rust sources are shallowly embedded: pure functions become Lean
functions, stateful managers become explicit state-passing functions,
machine integers are naturals with explicit reductions modulo 2^32 or
2^64 where the source performs wrapping casts, and fallible code returns
Except values.  External crates (aes-gcm, hmac, blahaj Shamir sharing,
base64) are abstracted: the parts of their behaviour the embedded code
relies on appear either as explicit parameters with stated correctness
hypotheses or as concrete executable models marked as such.
-/

namespace Egide

/-- Bytes are modelled as lists of naturals (each value intended below 256). -/
abbrev Bytes := List Nat

/-- Error type of the egide-crypto crate (src/core/egide-crypto/src/error.rs);
string payloads of the Rust enum are elided. -/
inductive CryptoError where
  | InvalidKey
  | EncryptionFailed
  | DecryptionFailed
  | InvalidInput
  | KeyGenerationFailed
deriving DecidableEq

/-- Modelled from the spec: the AES-256-GCM core provided by the external
aes-gcm crate.  `enc key nonce pt aad` is the GCM output (ciphertext for the
plaintext followed by the 16-byte tag); `dec key nonce ct aad` returns the
plaintext when authentication succeeds. -/
structure GcmScheme where
  enc : Bytes → Bytes → Bytes → Bytes → Bytes
  dec : Bytes → Bytes → Bytes → Bytes → Option Bytes

/-- Facts of AES-256-GCM that the external crate guarantees: the GCM output is
the plaintext plus a 16-byte tag, and decryption inverts encryption under the
same key, nonce and associated data. -/
def GcmCorrect (g : GcmScheme) : Prop :=
  ∀ k n p a, (g.enc k n p a).length = p.length + 16 ∧ g.dec k n (g.enc k n p a) a = some p

namespace aead

/-- Shallow embedding of egide_crypto::aead::encrypt
(src/core/egide-crypto/src/aead.rs, lines 38-77).  The randomly generated
12-byte nonce is passed explicitly; the aes-gcm crate treats an absent
associated-data argument as empty associated data. -/
def encrypt (g : GcmScheme) (key nonce plaintext : Bytes) (aad : Option Bytes) :
    Except CryptoError Bytes :=
  if key.length ≠ 32 then .error .InvalidKey
  else .ok (nonce ++ g.enc key nonce plaintext (aad.getD []))

/-- Shallow embedding of egide_crypto::aead::decrypt
(src/core/egide-crypto/src/aead.rs, lines 92-133). -/
def decrypt (g : GcmScheme) (key ciphertext : Bytes) (aad : Option Bytes) :
    Except CryptoError Bytes :=
  if key.length ≠ 32 then .error .InvalidKey
  else if ciphertext.length < 12 + 16 then .error .InvalidInput
  else
    match g.dec key (ciphertext.take 12) (ciphertext.drop 12) (aad.getD []) with
    | some pt => .ok pt
    | none => .error .DecryptionFailed

end aead

/-- Modelled from the spec: tag of a concrete deterministic AEAD instance used
to evaluate the wrappers on closed inputs (the real AES-256-GCM core lives in
the external aes-gcm crate).  It folds key, nonce, plaintext and associated
data into one repeated byte. -/
def modelTag (k n p a : Bytes) : Bytes :=
  List.replicate 16
    ((k.sum + 2 * n.sum + 3 * p.sum + 5 * a.sum + 7 * p.length + 11 * a.length) % 256)

/-- Modelled from the spec: concrete AEAD instance satisfying `GcmCorrect`,
used only to instantiate witnesses and counterexamples. -/
def modelGcm : GcmScheme where
  enc k n p a := p ++ modelTag k n p a
  dec k n c a :=
    if 16 ≤ c.length ∧ c.drop (c.length - 16) = modelTag k n (c.take (c.length - 16)) a
    then some (c.take (c.length - 16)) else none

theorem modelGcm_correct : GcmCorrect modelGcm := by
  intro k n p a
  have hlen : (p ++ modelTag k n p a).length = p.length + 16 := by
    simp [modelTag]
  refine ⟨hlen, ?_⟩
  have hsub : (p ++ modelTag k n p a).length - 16 = p.length := by
    simp [modelTag]
  have htake : (p ++ modelTag k n p a).take p.length = p :=
    List.take_left p (modelTag k n p a)
  have hdrop : (p ++ modelTag k n p a).drop p.length = modelTag k n p a :=
    List.drop_left p (modelTag k n p a)
  simp only [modelGcm, GcmScheme.dec, hsub, htake, hdrop, hlen]
  simp

/-- C3: for every 32-byte key k, plaintext p and optional associated data a
(and any 12-byte nonce drawn by the CSPRNG), encrypt succeeds and produces a
byte string of exactly 12 + |p| + 16 bytes of the form nonce(12) followed by
the GCM output of |p| + 16 bytes, and decrypting it with the same key and
associated data returns exactly p. -/
theorem aead_encrypt_roundtrip (g : GcmScheme) (hg : GcmCorrect g)
    (k n p : Bytes) (a : Option Bytes) (hk : k.length = 32) (hn : n.length = 12) :
    ∃ c, aead.encrypt g k n p a = .ok c ∧
      c.length = 12 + p.length + 16 ∧
      c.take 12 = n ∧
      c.drop 12 = g.enc k n p (a.getD []) ∧
      (c.drop 12).length = p.length + 16 ∧
      aead.decrypt g k c a = .ok p := by
  refine ⟨n ++ g.enc k n p (a.getD []), ?_, ?_, ?_, ?_, ?_, ?_⟩
  · simp [aead.encrypt, hk]
  · have := (hg k n p (a.getD [])).1
    simp [this, hn]; omega
  · rw [← hn]; exact List.take_left n _
  · rw [← hn]; exact List.drop_left n _
  · rw [← hn, List.drop_left n _]; exact (hg k n p (a.getD [])).1
  · have hc : (n ++ g.enc k n p (a.getD [])).length = 12 + (p.length + 16) := by
      simp [(hg k n p (a.getD [])).1, hn]
    have htake : (n ++ g.enc k n p (a.getD [])).take 12 = n := by
      rw [← hn]; exact List.take_left n _
    have hdrop : (n ++ g.enc k n p (a.getD [])).drop 12 = g.enc k n p (a.getD []) := by
      rw [← hn]; exact List.drop_left n _
    simp only [aead.decrypt, hk, hc]
    rw [if_neg (by omega), if_neg (by omega), htake, hdrop, (hg k n p (a.getD [])).2]

/-- Witness for C3 at a concrete key, nonce, plaintext and empty associated
data, with the model AEAD instance. -/
theorem aead_encrypt_roundtrip_witness :
    ∃ c, aead.encrypt modelGcm (List.replicate 32 0) (List.replicate 12 1) [42] none = .ok c ∧
      c.length = 12 + [42].length + 16 ∧
      c.take 12 = List.replicate 12 1 ∧
      c.drop 12 = modelGcm.enc (List.replicate 32 0) (List.replicate 12 1) [42] [] ∧
      (c.drop 12).length = [42].length + 16 ∧
      aead.decrypt modelGcm (List.replicate 32 0) c none = .ok [42] :=
  aead_encrypt_roundtrip modelGcm modelGcm_correct (List.replicate 32 0)
    (List.replicate 12 1) [42] none (by decide) (by decide)

/-- Amended C6: decrypt classifies its failures as follows: a key that is not
32 bytes yields InvalidKey (for any input); a 32-byte key with an input
shorter than 28 bytes yields InvalidInput; and with a 32-byte key and an
input of at least 28 bytes, any authentication failure of the underlying GCM
core (as happens for a tampered tag or mismatched associated data) yields
DecryptionFailed.  The first two classes are exact characterizations. -/
theorem aead_decrypt_error_classes (g : GcmScheme) (k c : Bytes) (a : Option Bytes) :
    (aead.decrypt g k c a = .error .InvalidKey ↔ k.length ≠ 32) ∧
    (aead.decrypt g k c a = .error .InvalidInput ↔ (k.length = 32 ∧ c.length < 28)) ∧
    (k.length = 32 → 28 ≤ c.length →
      g.dec k (c.take 12) (c.drop 12) (a.getD []) = none →
      aead.decrypt g k c a = .error .DecryptionFailed) := by
  by_cases hk : k.length = 32
  · by_cases hc : c.length < 12 + 16
    · refine ⟨?_, ?_, ?_⟩
      · simp [aead.decrypt, hk, hc]
      · simp [aead.decrypt, hk, hc]
      · intro _ hge _; omega
    · refine ⟨?_, ?_, ?_⟩
      · simp only [aead.decrypt, hk]
        rw [if_neg (by simp), if_neg hc]
        cases hdec : g.dec k (c.take 12) (c.drop 12) (a.getD []) <;> simp
      · simp only [aead.decrypt, hk]
        rw [if_neg (by simp), if_neg hc]
        cases hdec : g.dec k (c.take 12) (c.drop 12) (a.getD []) <;> simp <;> try omega
      · intro _ _ hdec
        simp only [aead.decrypt, hk]
        rw [if_neg (by simp), if_neg hc, hdec]
  · refine ⟨?_, ?_, ?_⟩
    · simp [aead.decrypt, hk]
    · simp [aead.decrypt, hk]
    · intro h32; exact absurd h32 hk

/-- Witness for C6 (amended): with a 32-byte key, a 28-byte input and
associated data differing from the one fixed at encryption, the model GCM
core rejects and decrypt reports DecryptionFailed. -/
theorem aead_decrypt_error_classes_witness :
    aead.decrypt modelGcm (List.replicate 32 0) (List.replicate 28 0) (some [1]) =
      .error .DecryptionFailed :=
  (aead_decrypt_error_classes modelGcm (List.replicate 32 0) (List.replicate 28 0)
    (some [1])).2.2 (by decide) (by decide) (by decide)

/-- Counterexample for C6 as stated: a key that is not 32 bytes makes decrypt
fail with InvalidKey, which is not the DecryptionFailed error class. -/
theorem aead_decrypt_wrong_key_class :
    aead.decrypt modelGcm (List.replicate 16 0) (List.replicate 28 0) none =
      .error .InvalidKey ∧
    CryptoError.InvalidKey ≠ CryptoError.DecryptionFailed := by
  exact ⟨rfl, by decide⟩

/-- Error type of the egide-seal crate (src/core/egide-seal/src/error.rs);
string payloads elided, the duplicate share index kept. -/
inductive SealError where
  | AlreadyInitialized
  | NotInitialized
  | Sealed
  | AlreadyUnsealed
  | InvalidConfig
  | InvalidShare
  | DuplicateShare (index : Nat)
  | ReconstructionFailed
  | Storage
  | Crypto
deriving DecidableEq

/-- SealStatus (src/core/egide-seal/src/lib.rs, lines 54-62). -/
inductive SealStatus where
  | Uninitialized
  | Sealed
  | Unsealed
deriving DecidableEq

/-- A parsed Shamir share of the external blahaj crate: x coordinate and y
bytes. -/
structure SharkShare where
  x : Nat
  y : Bytes
deriving DecidableEq

/-- Modelled from the spec: SharkShare::try_from of the external blahaj crate.
A share needs at least two bytes; the first byte is the x coordinate
(spec: a share's bytes[0] is its index). -/
def sharkShareOfBytes (data : Bytes) : Option SharkShare :=
  match data with
  | a :: b :: rest => some ⟨a, b :: rest⟩
  | _ => none

/-- Share (lines 89-95): index plus raw encoded bytes. -/
structure Share where
  index : Nat
  data : Bytes
deriving DecidableEq

/-- UnsealProgress (lines 126-134); threshold and progress are u8 values. -/
structure UnsealProgress where
  sealed : Bool
  threshold : Nat
  progress : Nat
deriving DecidableEq

/-- ShamirConfig (lines 65-71). -/
structure ShamirConfig where
  shares : Nat
  threshold : Nat
deriving DecidableEq

/-- ShamirConfig::validate (lines 73-85). -/
def ShamirConfig.validate (c : ShamirConfig) : Except SealError Unit :=
  if c.threshold = 0 then .error .InvalidConfig
  else if c.shares < c.threshold then .error .InvalidConfig
  else .ok ()

/-- In-memory state of SealManager (lines 136-149); the storage handle and
data path are elided. -/
structure SealState where
  status : SealStatus
  master_key : Option Bytes
  pending_shares : List SharkShare
  pending_indices : List Nat
  threshold : Nat
  dev_mode : Bool
  expected_hmac : Option Bytes
deriving DecidableEq

/-- Contents of the system namespace of the storage backend, restricted to the
keys the seal manager reads (mod keys, lines 43-51). -/
structure SystemStore where
  root_token_hash : Option Bytes
  shamir_threshold : Option Bytes
  shamir_total : Option Bytes
  initialized_at : Option Bytes
  dev_mode_master_key : Option Bytes
  master_key_hmac : Option Bytes
deriving DecidableEq

/-- MasterKey::from_bytes (src/core/egide-crypto/src/keys.rs): requires
exactly 32 bytes. -/
def masterKeyFromBytes (b : Bytes) : Except CryptoError Bytes :=
  if b.length = 32 then .ok b else .error .InvalidKey

/-- Rust HashSet::insert on the pending index set, modelled on lists. -/
def insertIndex (l : List Nat) (i : Nat) : List Nat :=
  if i ∈ l then l else l ++ [i]

/-- Threshold byte read by load_status; a stored empty byte string would
panic in the source (threshold_bytes[0]), which no claim exercises. -/
def loadThreshold (store : SystemStore) : Nat :=
  match store.shamir_threshold with
  | some (b :: _) => b
  | _ => 0

/-- SealManager::new followed by load_status (lines 153-202). -/
def loadStatus (store : SystemStore) : Except SealError SealState :=
  if store.initialized_at.isSome then
    match store.dev_mode_master_key with
    | some kb =>
      match masterKeyFromBytes kb with
      | .ok mk =>
        .ok ⟨SealStatus.Unsealed, some mk, [], [], loadThreshold store, true,
             store.master_key_hmac⟩
      | .error _ => .error .Crypto
    | none =>
      .ok ⟨SealStatus.Sealed, none, [], [], loadThreshold store, false,
           store.master_key_hmac⟩
  else .ok ⟨SealStatus.Uninitialized, none, [], [], 0, false, none⟩

/-- SealManager::initialize (lines 215-283).  The CSPRNG-generated master key
is passed explicitly, the HMAC primitive is a parameter, and the generated
shares, root token and storage writes (irrelevant to the claims) are elided
from the state. -/
def initVault (hmac : Bytes → Bytes) (st : SealState) (config : ShamirConfig)
    (mk : Bytes) : SealState × Except SealError Unit :=
  if st.status ≠ SealStatus.Uninitialized then (st, .error .AlreadyInitialized)
  else
    match config.validate with
    | .error e => (st, .error e)
    | .ok _ =>
      ({ st with expected_hmac := some (hmac mk), status := SealStatus.Sealed,
                 threshold := config.threshold }, .ok ())

/-- SealManager::reconstruct_master_key (lines 325-362).  `recover` stands for
the external blahaj Sharks::recover, `hmac` for compute_master_key_hmac.
Note that the Shamir-recovery-failure branch returns before the pending state
is cleared, unlike the missing-HMAC and HMAC-mismatch branches. -/
def reconstruct_master_key (recover : Nat → List SharkShare → Option Bytes)
    (hmac : Bytes → Bytes) (st : SealState) : SealState × Except SealError Unit :=
  match recover st.threshold st.pending_shares with
  | none => (st, .error .ReconstructionFailed)
  | some secret =>
    match st.expected_hmac with
    | none =>
      ({ st with pending_shares := [], pending_indices := [] },
       .error .ReconstructionFailed)
    | some expected =>
      if hmac secret ≠ expected then
        ({ st with pending_shares := [], pending_indices := [] },
         .error .ReconstructionFailed)
      else
        match masterKeyFromBytes secret with
        | .error _ => (st, .error .Crypto)
        | .ok mk =>
          ({ st with pending_shares := [], pending_indices := [],
                     master_key := some mk, status := SealStatus.Unsealed }, .ok ())

/-- Appending a submitted share to the pending state inside unseal
(lines 302-303). -/
def pushShare (st : SealState) (share : Share) (ss : SharkShare) : SealState :=
  { st with pending_shares := st.pending_shares ++ [ss],
            pending_indices := insertIndex st.pending_indices share.index }

/-- Tail of SealManager::unseal (lines 313-321): reconstruct once the pending
count reaches the threshold, then report progress.  The progress field is the
pending count cast to u8 (reduced modulo 256). -/
def unsealFinish (recover : Nat → List SharkShare → Option Bytes) (hmac : Bytes → Bytes)
    (st1 : SealState) : SealState × Except SealError UnsealProgress :=
  match (if st1.threshold ≤ st1.pending_shares.length
         then reconstruct_master_key recover hmac st1
         else (st1, .ok ())) with
  | (st2, .error e) => (st2, .error e)
  | (st2, .ok _) =>
    (st2, .ok ⟨decide (st2.status = SealStatus.Sealed), st2.threshold,
               st2.pending_shares.length % 256⟩)

/-- SealManager::unseal (lines 286-322). -/
def unsealStep (recover : Nat → List SharkShare → Option Bytes) (hmac : Bytes → Bytes)
    (st : SealState) (share : Share) : SealState × Except SealError UnsealProgress :=
  match st.status with
  | SealStatus.Uninitialized => (st, .error .NotInitialized)
  | SealStatus.Unsealed => (st, .error .AlreadyUnsealed)
  | SealStatus.Sealed =>
    if share.index ∈ st.pending_indices then (st, .error (.DuplicateShare share.index))
    else
      match sharkShareOfBytes share.data with
      | none => (st, .error .InvalidShare)
      | some ss => unsealFinish recover hmac (pushShare st share ss)

/-- SealManager::seal (lines 364-377): a no-op in dev mode. -/
def sealStep (st : SealState) : SealState :=
  if st.dev_mode then st
  else { st with master_key := none, pending_shares := [], pending_indices := [],
                 status := SealStatus.Sealed }

/-- SealManager::enable_dev_mode (lines 386-432); as for initialize, generated
material is passed explicitly and storage writes are elided. -/
def enable_dev_mode (hmac : Bytes → Bytes) (st : SealState) (mk : Bytes) :
    SealState × Except SealError Unit :=
  if st.status ≠ SealStatus.Uninitialized then (st, .error .AlreadyInitialized)
  else
    ({ st with expected_hmac := some (hmac mk), master_key := some mk,
               status := SealStatus.Unsealed, dev_mode := true, threshold := 1 },
     .ok ())

/-- Modelled from the spec: Shamir recovery of the external blahaj crate,
instantiated degenerately for closed evaluations: every share of a dealing
carries the secret as its y part; recovery fails when shares have differing y
lengths or fewer distinct x coordinates than the threshold (the failure
conditions of the external library), and otherwise returns the first share's
y part. -/
def modelRecover (threshold : Nat) (shares : List SharkShare) : Option Bytes :=
  match shares with
  | [] => none
  | s :: rest =>
    if rest.all (fun r => r.y.length = s.y.length) ∧
       threshold ≤ ((s :: rest).map SharkShare.x).dedup.length
    then some s.y else none

/-- Modelled from the spec: compute_master_key_hmac, HMAC-SHA256 keyed by the
master key over the fixed domain-separation tag (external hmac crate),
instantiated injectively for closed evaluations. -/
def modelHmac (masterKey : Bytes) : Bytes := 99 :: masterKey

/-- The master-key custody invariant: the key is held exactly while
unsealed. -/
def MKInv (st : SealState) : Prop :=
  st.master_key.isSome ↔ st.status = SealStatus.Unsealed

theorem MKInv_loadStatus {store : SystemStore} {st : SealState}
    (h : loadStatus store = .ok st) : MKInv st := by
  unfold loadStatus at h
  split at h
  · split at h
    · split at h
      · injection h with h; subst h; simp [MKInv]
      · exact absurd h (by simp)
    · injection h with h; subst h; simp [MKInv]
  · injection h with h; subst h; simp [MKInv]

theorem MKInv_initVault (hmac : Bytes → Bytes) (st : SealState) (cfg : ShamirConfig)
    (mk : Bytes) (hI : MKInv st) : MKInv (initVault hmac st cfg mk).1 := by
  unfold initVault
  by_cases hstat : st.status ≠ SealStatus.Uninitialized
  · rw [if_pos hstat]; exact hI
  · rw [if_neg hstat]
    simp only [ne_eq, not_not] at hstat
    have hnone : ¬ st.master_key.isSome = true := by
      simp only [MKInv] at hI
      rw [hI, hstat]
      simp
    split
    · exact hI
    · simp [MKInv, hnone]

theorem MKInv_reconstruct (recover : Nat → List SharkShare → Option Bytes)
    (hmac : Bytes → Bytes) (st : SealState) (hI : MKInv st) :
    MKInv (reconstruct_master_key recover hmac st).1 := by
  unfold reconstruct_master_key
  split
  · exact hI
  · split
    · simpa [MKInv] using hI
    · split
      · simpa [MKInv] using hI
      · split
        · exact hI
        · simp [MKInv]

theorem MKInv_unsealFinish (recover : Nat → List SharkShare → Option Bytes)
    (hmac : Bytes → Bytes) (st1 : SealState) (hI : MKInv st1) :
    MKInv (unsealFinish recover hmac st1).1 := by
  unfold unsealFinish
  have hcore : MKInv (if st1.threshold ≤ st1.pending_shares.length
      then reconstruct_master_key recover hmac st1 else (st1, .ok ())).1 := by
    split
    · exact MKInv_reconstruct recover hmac st1 hI
    · exact hI
  split
  · rename_i st2 e heq
    rw [heq] at hcore
    exact hcore
  · rename_i st2 u heq
    rw [heq] at hcore
    exact hcore

theorem MKInv_unsealStep (recover : Nat → List SharkShare → Option Bytes)
    (hmac : Bytes → Bytes) (st : SealState) (sh : Share) (hI : MKInv st) :
    MKInv (unsealStep recover hmac st sh).1 := by
  unfold unsealStep
  split
  · exact hI
  · exact hI
  · split
    · exact hI
    · split
      · exact hI
      · rename_i hstat _ _ ss _
        refine MKInv_unsealFinish recover hmac _ ?_
        simpa [MKInv, pushShare] using hI

theorem MKInv_sealStep (st : SealState) (hI : MKInv st) : MKInv (sealStep st) := by
  unfold sealStep
  split
  · exact hI
  · simp [MKInv]

theorem MKInv_enable_dev_mode (hmac : Bytes → Bytes) (st : SealState) (mk : Bytes)
    (hI : MKInv st) : MKInv (enable_dev_mode hmac st mk).1 := by
  unfold enable_dev_mode
  split
  · exact hI
  · simp [MKInv]

/-- States of the seal manager reachable by loading from an arbitrary system
store and then applying any sequence of the state-mutating operations with
arbitrary parameters (recovery and HMAC primitives included). -/
inductive ReachableSeal : SealState → Prop where
  | loaded (store : SystemStore) (st : SealState) :
      loadStatus store = .ok st → ReachableSeal st
  | initStep (hmac : Bytes → Bytes) (st : SealState) (cfg : ShamirConfig) (mk : Bytes) :
      ReachableSeal st → ReachableSeal (initVault hmac st cfg mk).1
  | unsealOp (recover : Nat → List SharkShare → Option Bytes) (hmac : Bytes → Bytes)
      (st : SealState) (sh : Share) :
      ReachableSeal st → ReachableSeal (unsealStep recover hmac st sh).1
  | sealOp (st : SealState) : ReachableSeal st → ReachableSeal (sealStep st)
  | devOp (hmac : Bytes → Bytes) (st : SealState) (mk : Bytes) :
      ReachableSeal st → ReachableSeal (enable_dev_mode hmac st mk).1

/-- C8: in every reachable seal-manager state the master key is present
exactly when the status is Unsealed; initialize leaves the in-memory master
key untouched (hence absent), a non-dev-mode seal removes the key and sets
the status to Sealed, and seal in dev mode changes nothing. -/
theorem seal_master_key_invariant :
    (∀ st, ReachableSeal st →
      (st.master_key.isSome ↔ st.status = SealStatus.Unsealed)) ∧
    (∀ (hmac : Bytes → Bytes) (st : SealState) (cfg : ShamirConfig) (mk : Bytes),
      ((initVault hmac st cfg mk).1).master_key = st.master_key) ∧
    (∀ st : SealState, st.dev_mode = false →
      (sealStep st).master_key = none ∧ (sealStep st).status = SealStatus.Sealed) ∧
    (∀ st : SealState, st.dev_mode = true → sealStep st = st) := by
  refine ⟨?_, ?_, ?_, ?_⟩
  · intro st hst
    induction hst with
    | loaded store st h => exact MKInv_loadStatus h
    | initStep hmac st cfg mk _ ih => exact MKInv_initVault hmac st cfg mk ih
    | unsealOp recover hmac st sh _ ih => exact MKInv_unsealStep recover hmac st sh ih
    | sealOp st _ ih => exact MKInv_sealStep st ih
    | devOp hmac st mk _ ih => exact MKInv_enable_dev_mode hmac st mk ih
  · intro hmac st cfg mk
    unfold initVault
    split
    · rfl
    · split <;> rfl
  · intro st hdev
    unfold sealStep
    rw [if_neg (by simp [hdev])]
    exact ⟨rfl, rfl⟩
  · intro st hdev
    unfold sealStep
    rw [if_pos hdev]

/-- Fresh seal-manager state as loaded from an empty system store. -/
def freshSeal : SealState := ⟨SealStatus.Uninitialized, none, [], [], 0, false, none⟩

/-- System store with none of the seal keys present. -/
def emptyStore : SystemStore := ⟨none, none, none, none, none, none⟩

/-- Concrete 32-byte master key used in closed seal evaluations. -/
def mk0 : Bytes := List.replicate 32 7

/-- Concrete unsealed dev-mode state. -/
def devSeal : SealState :=
  ⟨SealStatus.Unsealed, some mk0, [], [], 1, true, some (modelHmac mk0)⟩

/-- Witness for C8 at concrete states: the invariant at the freshly loaded
state, initialize leaving the key untouched, and both seal behaviours. -/
theorem seal_master_key_invariant_witness :
    (freshSeal.master_key.isSome ↔ freshSeal.status = SealStatus.Unsealed) ∧
    ((initVault modelHmac freshSeal ⟨3, 2⟩ mk0).1.master_key = freshSeal.master_key) ∧
    ((sealStep freshSeal).master_key = none ∧
      (sealStep freshSeal).status = SealStatus.Sealed) ∧
    sealStep devSeal = devSeal :=
  ⟨seal_master_key_invariant.1 freshSeal (ReachableSeal.loaded emptyStore freshSeal rfl),
   seal_master_key_invariant.2.1 modelHmac freshSeal ⟨3, 2⟩ mk0,
   seal_master_key_invariant.2.2.1 freshSeal rfl,
   seal_master_key_invariant.2.2.2 devSeal rfl⟩

/-- Outcomes of reconstruct_master_key when it reports ReconstructionFailed:
the status is untouched; on a Shamir-recovery failure the whole state is
untouched, while on a missing or mismatched stored HMAC the pending state is
cleared. -/
theorem reconstruct_failed_outcomes (recover : Nat → List SharkShare → Option Bytes)
    (hmac : Bytes → Bytes) (st st' : SealState)
    (h : reconstruct_master_key recover hmac st = (st', .error .ReconstructionFailed)) :
    st'.status = st.status ∧
    (if recover st.threshold st.pending_shares = none then st' = st
     else st'.pending_shares = [] ∧ st'.pending_indices = [] ∧
          st'.master_key = st.master_key ∧ st'.threshold = st.threshold) := by
  unfold reconstruct_master_key at h
  cases hrec : recover st.threshold st.pending_shares with
  | none =>
    simp only [hrec] at h
    injection h with h1 h2
    subst h1
    rw [if_pos rfl]
    exact ⟨rfl, rfl⟩
  | some secret =>
    simp only [hrec] at h
    rw [if_neg (by simp)]
    cases hexp : st.expected_hmac with
    | none =>
      simp only [hexp] at h
      injection h with h1 h2
      subst h1
      exact ⟨rfl, rfl, rfl, rfl, rfl⟩
    | some expected =>
      simp only [hexp] at h
      by_cases hne : hmac secret ≠ expected
      · rw [if_pos hne] at h
        injection h with h1 h2
        subst h1
        exact ⟨rfl, rfl, rfl, rfl, rfl⟩
      · rw [if_neg hne] at h
        cases hmk : masterKeyFromBytes secret with
        | error e => simp only [hmk] at h; simp at h
        | ok mk => simp only [hmk] at h; simp at h

/-- Outcome of reconstruct_master_key on success: the master key is installed,
the pending state cleared, the status becomes Unsealed, and the threshold is
unchanged. -/
theorem reconstruct_ok_outcomes (recover : Nat → List SharkShare → Option Bytes)
    (hmac : Bytes → Bytes) (st st' : SealState) (u : Unit)
    (h : reconstruct_master_key recover hmac st = (st', .ok u)) :
    st'.status = SealStatus.Unsealed ∧ st'.pending_shares = [] ∧
    st'.threshold = st.threshold := by
  unfold reconstruct_master_key at h
  cases hrec : recover st.threshold st.pending_shares with
  | none => simp only [hrec] at h; simp at h
  | some secret =>
    simp only [hrec] at h
    cases hexp : st.expected_hmac with
    | none => simp only [hexp] at h; simp at h
    | some expected =>
      simp only [hexp] at h
      by_cases hne : hmac secret ≠ expected
      · rw [if_pos hne] at h; simp at h
      · rw [if_neg hne] at h
        cases hmk : masterKeyFromBytes secret with
        | error e => simp only [hmk] at h; simp at h
        | ok mk =>
          simp only [hmk] at h
          injection h with h1 h2
          subst h1
          exact ⟨rfl, rfl, rfl⟩

/-- Amended C1: whenever the unseal-triggered reconstruction attempt is
rejected with ReconstructionFailed, the status stays Sealed; if the rejection
came from the stored HMAC being absent or differing from the HMAC of the
recovered secret, the pending share list and index set are cleared, but if
Shamir recovery itself failed the pending state — including the share just
appended — is retained. -/
theorem unseal_reconstruction_failure (recover : Nat → List SharkShare → Option Bytes)
    (hmac : Bytes → Bytes) (st st' : SealState) (share : Share)
    (h : unsealStep recover hmac st share = (st', .error .ReconstructionFailed)) :
    st.status = SealStatus.Sealed ∧ st'.status = SealStatus.Sealed ∧
    ∃ ss, sharkShareOfBytes share.data = some ss ∧
      (if recover st.threshold (st.pending_shares ++ [ss]) = none then
        st' = pushShare st share ss
      else st'.pending_shares = [] ∧ st'.pending_indices = [] ∧
           st'.master_key = st.master_key ∧ st'.threshold = st.threshold) := by
  unfold unsealStep at h
  cases hstat : st.status <;> simp only [hstat] at h
  case Uninitialized => simp at h
  case Unsealed => simp at h
  case Sealed =>
  refine ⟨rfl, ?_, ?_⟩ <;>
  · by_cases hdup : share.index ∈ st.pending_indices
    · rw [if_pos hdup] at h; simp at h
    · rw [if_neg hdup] at h
      cases hparse : sharkShareOfBytes share.data with
      | none => simp only [hparse] at h; simp at h
      | some ss =>
        simp only [hparse] at h
        unfold unsealFinish at h
        by_cases hreach :
            (pushShare st share ss).threshold ≤ (pushShare st share ss).pending_shares.length
        · rw [if_pos hreach] at h
          cases hcore : reconstruct_master_key recover hmac (pushShare st share ss) with
          | mk st2 r =>
            cases r with
            | error e =>
              simp only [hcore] at h
              injection h with h1 h2
              injection h2 with h2
              subst h1; subst h2
              have := reconstruct_failed_outcomes recover hmac (pushShare st share ss) st2 hcore
              first
              | exact this.1.trans (by simp [pushShare, hstat])
              | · refine ⟨ss, rfl, ?_⟩
                  have h2 := this.2
                  simp only [pushShare] at h2 ⊢
                  exact h2
            | ok u =>
              simp only [hcore] at h
              simp at h
        · rw [if_neg hreach] at h
          simp at h

/-- Sealed state with threshold 2 and one pending share already submitted. -/
def sealStateC1 : SealState :=
  ⟨SealStatus.Sealed, none, [⟨1, [10]⟩], [1], 2, false, some (modelHmac mk0)⟩

/-- State sealStateC1 after a rejected reconstruction that cleared the
pending state. -/
def clearedC1 : SealState :=
  ⟨SealStatus.Sealed, none, [], [], 2, false, some (modelHmac mk0)⟩

/-- Counterexample for C1 as stated: submitting a share whose y part has a
different length makes Shamir recovery fail; unseal returns
ReconstructionFailed but the pending share list and index set are NOT left
empty. -/
theorem unseal_recover_failure_keeps_pending :
    (unsealStep modelRecover modelHmac sealStateC1 ⟨2, [2, 5, 6]⟩).2 =
      .error .ReconstructionFailed ∧
    (unsealStep modelRecover modelHmac sealStateC1 ⟨2, [2, 5, 6]⟩).1.pending_shares =
      [⟨1, [10]⟩, ⟨2, [5, 6]⟩] ∧
    (unsealStep modelRecover modelHmac sealStateC1 ⟨2, [2, 5, 6]⟩).1.pending_indices =
      [1, 2] ∧
    ([⟨1, [10]⟩, ⟨2, [5, 6]⟩] : List SharkShare) ≠ [] :=
  ⟨rfl, rfl, rfl, by decide⟩

/-- Witness for C1 (amended) at a concrete HMAC-mismatch rejection: a second
share of matching length recovers a wrong secret, the stored HMAC differs,
and the pending state is cleared with the status still Sealed. -/
theorem unseal_reconstruction_failure_witness :
    sealStateC1.status = SealStatus.Sealed ∧ clearedC1.status = SealStatus.Sealed ∧
    ∃ ss, sharkShareOfBytes (Share.mk 2 [2, 11]).data = some ss ∧
      (if modelRecover sealStateC1.threshold (sealStateC1.pending_shares ++ [ss]) = none then
        clearedC1 = pushShare sealStateC1 ⟨2, [2, 11]⟩ ss
      else clearedC1.pending_shares = [] ∧ clearedC1.pending_indices = [] ∧
           clearedC1.master_key = sealStateC1.master_key ∧
           clearedC1.threshold = sealStateC1.threshold) :=
  unseal_reconstruction_failure modelRecover modelHmac sealStateC1 clearedC1
    ⟨2, [2, 11]⟩ rfl

/-- Sealed state with threshold 2 and no pending shares, as left by an
initialization with master key mk0. -/
def sealInit2 : SealState :=
  ⟨SealStatus.Sealed, none, [], [], 2, false, some (modelHmac mk0)⟩

/-- First share of the dealing of mk0. -/
def shareA : Share := ⟨1, 1 :: mk0⟩

/-- Second share of the dealing of mk0. -/
def shareB : Share := ⟨2, 2 :: mk0⟩

/-- State after submitting shareA to sealInit2. -/
def sealAfterOne : SealState := (unsealStep modelRecover modelHmac sealInit2 shareA).1

/-- Counterexample for C4 as stated: with threshold 2, the first submission
reports sealed with progress 1, but the threshold-reaching second submission
reports progress 0 — not 2 — because the pending state was cleared by the
successful reconstruction. -/
theorem unseal_threshold_progress_zero :
    (unsealStep modelRecover modelHmac sealInit2 shareA).2 =
      .ok ⟨true, 2, 1⟩ ∧
    (unsealStep modelRecover modelHmac sealAfterOne shareB).2 =
      .ok ⟨false, 2, 0⟩ ∧
    (0 : Nat) ≠ 2 :=
  ⟨rfl, rfl, by decide⟩

/-- Amended C4: every successful unseal submission reports the manager's
threshold; a submission that leaves the vault sealed reports progress equal to
the new pending count (previous count plus one, as a u8), and the
threshold-reaching submission that unseals reports sealed = false with
progress 0, the pending state having just been cleared. -/
theorem unseal_response_progress (recover : Nat → List SharkShare → Option Bytes)
    (hmac : Bytes → Bytes) (st st' : SealState) (share : Share) (p : UnsealProgress)
    (h : unsealStep recover hmac st share = (st', .ok p)) :
    p.threshold = st.threshold ∧
    (p.sealed = false → st'.status = SealStatus.Unsealed ∧ p.progress = 0) ∧
    (p.sealed = true → st'.status = SealStatus.Sealed ∧
      p.progress = (st.pending_shares.length + 1) % 256) := by
  unfold unsealStep at h
  cases hstat : st.status <;> simp only [hstat] at h
  case Uninitialized => simp at h
  case Unsealed => simp at h
  case Sealed =>
  by_cases hdup : share.index ∈ st.pending_indices
  · rw [if_pos hdup] at h; simp at h
  · rw [if_neg hdup] at h
    cases hparse : sharkShareOfBytes share.data with
    | none => simp only [hparse] at h; simp at h
    | some ss =>
      simp only [hparse] at h
      unfold unsealFinish at h
      by_cases hreach :
          (pushShare st share ss).threshold ≤ (pushShare st share ss).pending_shares.length
      · rw [if_pos hreach] at h
        cases hcore : reconstruct_master_key recover hmac (pushShare st share ss) with
        | mk st2 r =>
          cases r with
          | error e => simp only [hcore] at h; simp at h
          | ok u =>
            simp only [hcore] at h
            injection h with h1 h2
            injection h2 with h2
            subst h1; subst h2
            have hout := reconstruct_ok_outcomes recover hmac (pushShare st share ss) st2 u hcore
            refine ⟨by rw [hout.2.2]; simp [pushShare], ?_, ?_⟩
            · intro _; exact ⟨hout.1, by simp [hout.2.1]⟩
            · intro hTrue
              exfalso
              rw [hout.1] at hTrue
              simp at hTrue
      · rw [if_neg hreach] at h
        injection h with h1 h2
        injection h2 with h2
        subst h1; subst h2
        refine ⟨by simp [pushShare], ?_, ?_⟩
        · intro hFalse
          exfalso
          simp [pushShare] at hFalse
          exact hFalse hstat
        · intro _
          exact ⟨by simp [pushShare, hstat], by simp [pushShare]⟩

/-- Witness for C4 (amended) at the concrete threshold-reaching submission:
the response reports the threshold 2, sealed = false, and progress 0. -/
theorem unseal_response_progress_witness :
    (⟨false, 2, 0⟩ : UnsealProgress).threshold = sealAfterOne.threshold ∧
    ((⟨false, 2, 0⟩ : UnsealProgress).sealed = false →
      (unsealStep modelRecover modelHmac sealAfterOne shareB).1.status =
        SealStatus.Unsealed ∧
      (⟨false, 2, 0⟩ : UnsealProgress).progress = 0) ∧
    ((⟨false, 2, 0⟩ : UnsealProgress).sealed = true →
      (unsealStep modelRecover modelHmac sealAfterOne shareB).1.status =
        SealStatus.Sealed ∧
      (⟨false, 2, 0⟩ : UnsealProgress).progress =
        (sealAfterOne.pending_shares.length + 1) % 256) :=
  unseal_response_progress modelRecover modelHmac sealAfterOne
    (unsealStep modelRecover modelHmac sealAfterOne shareB).1 shareB ⟨false, 2, 0⟩ rfl

/-- Error type of the egide-secrets crate
(src/core/egide-secrets/src/error.rs); string message payloads elided, path
and version payloads kept. -/
inductive SecretsError where
  | NotFound (path : String)
  | VersionNotFound (path : String) (version : Nat)
  | Expired (path : String)
  | Deleted (path : String)
  | NotDeleted (path : String)
  | VersionMismatch (expected found : Nat)
  | InvalidPath
  | Storage
  | Crypto
deriving DecidableEq

/-- Rust char::is_alphanumeric (Unicode Alphabetic or Numeric), tabulated
faithfully for the Latin-1 range (codepoints below 0x100): ASCII digits and
letters, the Latin-1 letters including 0xAA, 0xB5, 0xBA and the accented
ranges (multiplication and division signs excluded), and the numeric signs
for superscripts and fractions.  Codepoints of 0x100 and above are outside
the model and mapped to false, although Unicode has further alphanumerics
there; theorems about path validation are therefore scoped to Latin-1. -/
def rustIsAlphanumeric (c : Char) : Bool :=
  let n := c.toNat
  decide ((48 ≤ n ∧ n ≤ 57) ∨ (65 ≤ n ∧ n ≤ 90) ∨ (97 ≤ n ∧ n ≤ 122) ∨
    n = 0xAA ∨ n = 0xB5 ∨ n = 0xBA ∨
    (0xC0 ≤ n ∧ n ≤ 0xD6) ∨ (0xD8 ≤ n ∧ n ≤ 0xF6) ∨ (0xF8 ≤ n ∧ n ≤ 0xFF) ∨
    n = 0xB2 ∨ n = 0xB3 ∨ n = 0xB9 ∨ n = 0xBC ∨ n = 0xBD ∨ n = 0xBE)

/-- Rust str::contains of the two-character pattern of a double slash. -/
def hasDoubleSlash : List Char → Bool
  | '/' :: '/' :: _ => true
  | _ :: rest => hasDoubleSlash rest
  | [] => false

/-- SecretsEngine::validate_path (src/core/egide-secrets/src/lib.rs, lines
189-213) over the path's character list. -/
def validatePathChars (p : List Char) : Except SecretsError Unit :=
  if p = [] then .error .InvalidPath
  else if p.head? = some '/' ∨ p.getLast? = some '/' then .error .InvalidPath
  else if hasDoubleSlash p then .error .InvalidPath
  else if !(p.all fun c => rustIsAlphanumeric c || c == '-' || c == '_' || c == '/') then
    .error .InvalidPath
  else .ok ()

/-- SecretsEngine::validate_path on a string path. -/
def validate_path (path : String) : Except SecretsError Unit :=
  validatePathChars path.toList

/-- The character class named by the C5 claim: ASCII alphanumerics, dash,
underscore and slash. -/
def asciiPathChar (c : Char) : Bool :=
  c.isAlpha || c.isDigit || c == '-' || c == '_' || c == '/'

/-- The path-acceptance predicate of the C5 claim with its character class
corrected to Rust's Unicode is_alphanumeric: non-empty, no leading or
trailing slash, no double slash, every character Unicode-alphanumeric or
dash, underscore, slash. -/
def pathOkAmended (p : List Char) : Prop :=
  p ≠ [] ∧ p.head? ≠ some '/' ∧ p.getLast? ≠ some '/' ∧
  hasDoubleSlash p = false ∧
  ∀ c ∈ p, rustIsAlphanumeric c = true ∨ c = '-' ∨ c = '_' ∨ c = '/'

/-- Counterexample for C5 as stated: the path consisting of the single letter
e-acute (U+00E9) contains a character outside the ASCII class of the claim,
yet validate_path accepts it, because the source tests Rust's Unicode
char::is_alphanumeric. -/
theorem validate_path_accepts_unicode :
    validate_path "é" = .ok () ∧
    asciiPathChar (Char.ofNat 233) = false ∧
    "é".toList = [Char.ofNat 233] := by
  refine ⟨rfl, by decide, by decide⟩

/-- Amended C5: over paths of Latin-1 characters (the range the embedding
tabulates), validate_path accepts exactly the paths that are non-empty, do
not start or end with a slash, contain no double slash, and whose every
character is a Unicode alphanumeric (Rust char::is_alphanumeric — a strictly
larger class than ASCII [A-Za-z0-9]) or one of dash, underscore, slash; all
other paths are rejected with InvalidPath. -/
theorem validate_path_characterization (p : List Char)
    (_hlatin : ∀ c ∈ p, c.toNat < 256) :
    (validatePathChars p = .ok () ↔ pathOkAmended p) ∧
    (validatePathChars p = .error .InvalidPath ↔ ¬ pathOkAmended p) := by
  have hall : (p.all fun c => rustIsAlphanumeric c || c == '-' || c == '_' || c == '/') = true ↔
      (∀ c ∈ p, rustIsAlphanumeric c = true ∨ c = '-' ∨ c = '_' ∨ c = '/') := by
    simp only [List.all_eq_true, Bool.or_eq_true, beq_iff_eq]
    constructor <;> intro h c hc <;> have := h c hc <;> tauto
  have hmain : validatePathChars p = .ok () ↔ pathOkAmended p := by
    unfold validatePathChars pathOkAmended
    split_ifs with h1 h2 h3 h4
    · constructor
      · intro h; exact absurd h (by simp)
      · intro h; exact absurd h1 h.1
    · constructor
      · intro h; exact absurd h (by simp)
      · intro h
        rcases h2 with h2 | h2
        · exact absurd h2 h.2.1
        · exact absurd h2 h.2.2.1
    · constructor
      · intro h; exact absurd h (by simp)
      · intro h
        rw [h.2.2.2.1] at h3
        exact Bool.noConfusion h3
    · constructor
      · intro h; exact absurd h (by simp)
      · intro h
        have h5 := hall.mpr h.2.2.2.2
        rw [h5] at h4
        simp at h4
    · constructor
      · intro _
        refine ⟨h1, ?_, ?_, ?_, hall.mp ?_⟩
        · intro hh; exact h2 (Or.inl hh)
        · intro hh; exact h2 (Or.inr hh)
        · simpa using h3
        · by_contra hna
          exact h4 (by simp [hna])
      · intro _; rfl
  have htot : validatePathChars p = .ok () ∨ validatePathChars p = .error .InvalidPath := by
    unfold validatePathChars
    split_ifs <;> simp
  refine ⟨hmain, ?_⟩
  constructor
  · intro h hok
    rw [← hmain] at hok
    rw [h] at hok
    exact Except.noConfusion hok
  · intro h
    rcases htot with he | he
    · exact absurd (hmain.mp he) h
    · exact he

/-- Witness for C5 (amended) at a concrete Latin-1 path. -/
theorem validate_path_characterization_witness :
    (validatePathChars ['a', '/', 'b'] = .ok () ↔ pathOkAmended ['a', '/', 'b']) ∧
    (validatePathChars ['a', '/', 'b'] = .error .InvalidPath ↔
      ¬ pathOkAmended ['a', '/', 'b']) :=
  validate_path_characterization ['a', '/', 'b'] (by decide)

/-- One row of the secrets table, keyed by path (SCHEMA, lines 34-41). -/
structure SecretRecord where
  version : Nat
  deleted_at : Option Nat
  created_at : Nat
  updated_at : Nat
deriving DecidableEq

/-- One row of the secret_versions table, keyed by path and version (SCHEMA,
lines 43-53); the encrypted data and nonce blobs are kept as bytes (their hex
encoding in the database is invertible and elided). -/
structure VersionRow where
  version : Nat
  data : Bytes
  nonce : Bytes
  expires_at : Option Nat
  metadata : Option String
  created_at : Nat
  created_by : Option String
deriving DecidableEq

/-- State of the two secrets tables of one tenant database. -/
structure SecretsState where
  records : List (String × SecretRecord)
  versions : List (String × VersionRow)
deriving DecidableEq

/-- SELECT of the record row for a path (path is the primary key). -/
def lookupRecord (st : SecretsState) (path : String) : Option SecretRecord :=
  (st.records.find? (fun pr => pr.1 == path)).map Prod.snd

/-- Version rows stored for a path, in table order. -/
def versionsOf (st : SecretsState) (path : String) : List VersionRow :=
  (st.versions.filter (fun pv => pv.1 == path)).map Prod.snd

/-- Decrypted secret data: the string map. -/
abbrev SecretData := List (String × String)

/-- PutOptions (lib.rs, lines 91-99); the TTL in seconds, metadata as its
serialized JSON string. -/
structure PutOptions where
  ttl : Option Nat
  metadata : Option String
  cas : Option Nat
deriving DecidableEq

/-- Reduction modulo 2^32, the `as u32` cast. -/
def u32 (n : Nat) : Nat := n % 4294967296

/-- The UPDATE of the secrets row inside put (lines 275-282). -/
def updateRecord (st : SecretsState) (path : String) (new_version now : Nat) :
    SecretsState :=
  { st with records := st.records.map (fun pr =>
      if pr.1 == path then (pr.1, { pr.2 with version := new_version, updated_at := now })
      else pr) }

/-- The INSERT of the secrets row inside put (lines 291-298). -/
def insertRecord (st : SecretsState) (path : String) (now : Nat) : SecretsState :=
  { st with records := st.records ++ [(path, ⟨1, none, now, now⟩)] }

/-- The INSERT of the version row inside put (lines 301-319).  `encData`
stands for encrypt_data (lines 149-166): serialization of the map and AEAD
encryption under the path-derived 32-byte key never fail, so it is a total
function returning the stored data and nonce parts. -/
def writeVersion (encData : String → SecretData → Bytes × Bytes) (actor : Option String)
    (now : Nat) (st : SecretsState) (path : String) (data : SecretData)
    (options : PutOptions) (new_version : Nat) : SecretsState :=
  { st with versions := st.versions ++ [(path,
      { version := new_version,
        data := (encData path data).1,
        nonce := (encData path data).2,
        expires_at := options.ttl.map (fun t => now + t),
        metadata := options.metadata,
        created_at := now,
        created_by := actor })] }

/-- SecretsEngine::put (src/core/egide-secrets/src/lib.rs, lines 226-323).
The stored version is read back as i64 and cast `as u32`; the successor is
u32 arithmetic. -/
def put (encData : String → SecretData → Bytes × Bytes) (actor : Option String)
    (now : Nat) (st : SecretsState) (path : String) (data : SecretData)
    (options : PutOptions) : SecretsState × Except SecretsError Nat :=
  match validate_path path with
  | .error e => (st, .error e)
  | .ok _ =>
    match lookupRecord st path with
    | some r =>
      if r.deleted_at.isSome then (st, .error (.Deleted path))
      else
        match options.cas with
        | some expected =>
          if u32 r.version ≠ expected then
            (st, .error (.VersionMismatch expected (u32 r.version)))
          else
            (writeVersion encData actor now
               (updateRecord st path (u32 (u32 r.version + 1)) now) path data options
               (u32 (u32 r.version + 1)),
             .ok (u32 (u32 r.version + 1)))
        | none =>
          (writeVersion encData actor now
             (updateRecord st path (u32 (u32 r.version + 1)) now) path data options
             (u32 (u32 r.version + 1)),
           .ok (u32 (u32 r.version + 1)))
    | none =>
      if options.cas.isSome then (st, .error (.NotFound path))
      else
        (writeVersion encData actor now (insertRecord st path now) path data options 1,
         .ok 1)

theorem find_update_assoc (l : List (String × SecretRecord)) (path : String) (v now : Nat) :
    (((l.map (fun pr => if pr.1 == path then
        (pr.1, { pr.2 with version := v, updated_at := now }) else pr)).find?
          (fun pr => pr.1 == path)).map Prod.snd) =
      ((l.find? (fun pr => pr.1 == path)).map Prod.snd).map
        (fun r => { r with version := v, updated_at := now }) := by
  induction l with
  | nil => rfl
  | cons hd tl ih =>
    by_cases hh : (hd.1 == path) = true
    · simp only [List.map_cons, if_pos hh]
      rw [List.find?_cons_of_pos (p := fun pr : String × SecretRecord => pr.1 == path) _ (by simpa using hh),
        List.find?_cons_of_pos (p := fun pr : String × SecretRecord => pr.1 == path) _ hh]
      simp
    · simp only [List.map_cons, if_neg hh]
      rw [List.find?_cons_of_neg (p := fun pr : String × SecretRecord => pr.1 == path) _ (by simpa using hh),
        List.find?_cons_of_neg (p := fun pr : String × SecretRecord => pr.1 == path) _ hh]
      exact ih

theorem find_append_single (l : List (String × SecretRecord)) (path : String)
    (x : SecretRecord) (h : l.find? (fun pr => pr.1 == path) = none) :
    (((l ++ [(path, x)]).find? (fun pr => pr.1 == path)).map Prod.snd) = some x := by
  induction l with
  | nil => simp
  | cons hd tl ih =>
    by_cases hh : (hd.1 == path) = true
    · rw [List.find?_cons_of_pos (p := fun pr : String × SecretRecord => pr.1 == path) _ hh] at h
      exact Option.noConfusion h
    · rw [List.find?_cons_of_neg (p := fun pr : String × SecretRecord => pr.1 == path) _ hh] at h
      simp only [List.cons_append]
      rw [List.find?_cons_of_neg (p := fun pr : String × SecretRecord => pr.1 == path) _ hh]
      exact ih h

/-- C2: for every valid path: if the record exists, is not soft-deleted and a
CAS version is supplied, put succeeds exactly when the expected version
equals the stored current version, returning the successor version and
updating the record to it, and otherwise fails with VersionMismatch carrying
expected and found; with no record, put with a CAS fails with NotFound, and
put without CAS creates the secret at version 1.  Stored versions are u32
values; the in-range hypothesis scopes away the u32 wrap at the maximal
version. -/
theorem put_cas_semantics (encData : String → SecretData → Bytes × Bytes)
    (actor : Option String) (now : Nat) (st : SecretsState) (path : String)
    (data : SecretData) (options : PutOptions)
    (hv : validate_path path = .ok ()) :
    (∀ r expected, lookupRecord st path = some r → r.deleted_at = none →
      options.cas = some expected → r.version + 1 < 4294967296 →
      ((expected = r.version →
        (put encData actor now st path data options).2 = .ok (r.version + 1) ∧
        lookupRecord (put encData actor now st path data options).1 path =
          some { r with version := r.version + 1, updated_at := now }) ∧
       (expected ≠ r.version →
        put encData actor now st path data options =
          (st, .error (.VersionMismatch expected r.version))))) ∧
    (lookupRecord st path = none → options.cas.isSome →
      put encData actor now st path data options = (st, .error (.NotFound path))) ∧
    (lookupRecord st path = none → options.cas = none →
      (put encData actor now st path data options).2 = .ok 1 ∧
      lookupRecord (put encData actor now st path data options).1 path =
        some ⟨1, none, now, now⟩) := by
  refine ⟨?_, ?_, ?_⟩
  · intro r expected hr hdel hcas hrange
    have hu : u32 r.version = r.version := Nat.mod_eq_of_lt (by omega)
    have hu1 : u32 (u32 r.version + 1) = r.version + 1 := by
      rw [hu]; exact Nat.mod_eq_of_lt hrange
    constructor
    · intro heq
      subst heq
      have hne : ¬ (u32 r.version ≠ r.version) := by rw [hu]; simp
      constructor
      · unfold put
        simp only [hv, hr, hdel, Option.isSome_none, Bool.false_eq_true, if_false, hcas]
        rw [if_neg hne]
        dsimp only
        rw [hu1]
      · unfold put
        simp only [hv, hr, hdel, Option.isSome_none, Bool.false_eq_true, if_false, hcas]
        rw [if_neg hne]
        dsimp only
        have hl := find_update_assoc st.records path (u32 (u32 r.version + 1)) now
        unfold lookupRecord at hr ⊢
        simp only [writeVersion, updateRecord]
        rw [hl, hr, hu1]
        simp [hdel]
    · intro hne
      have hcond : u32 r.version ≠ expected := by rw [hu]; exact fun hh => hne hh.symm
      unfold put
      simp only [hv, hr, hdel, Option.isSome_none, Bool.false_eq_true, if_false, hcas]
      rw [if_pos hcond, hu]
  · intro hnone hsome
    unfold put
    simp only [hv, hnone]
    rw [if_pos hsome]
  · intro hnone hcas
    unfold put
    simp only [hv, hnone, hcas, Option.isSome_none, Bool.false_eq_true, if_false]
    refine ⟨by trivial, ?_⟩
    have hfind : st.records.find? (fun pr => pr.1 == path) = none := by
      unfold lookupRecord at hnone
      exact Option.map_eq_none'.mp hnone
    unfold lookupRecord
    simp only [writeVersion, insertRecord]
    exact find_append_single st.records path ⟨1, none, now, now⟩ hfind

/-- Concrete one-record state used by the secrets witnesses. -/
def stOneRecord : SecretsState := ⟨[("a", ⟨1, none, 0, 0⟩)], []⟩

/-- Witness for C2 at a concrete state holding path a at version 1, with a
matching CAS of 1. -/
theorem put_cas_semantics_witness :
    (∀ r expected, lookupRecord stOneRecord "a" = some r → r.deleted_at = none →
      (PutOptions.mk none none (some 1)).cas = some expected → r.version + 1 < 4294967296 →
      ((expected = r.version →
        (put (fun _ _ => ([], [])) none 5 stOneRecord "a" [] ⟨none, none, some 1⟩).2 =
          .ok (r.version + 1) ∧
        lookupRecord
          (put (fun _ _ => ([], [])) none 5 stOneRecord "a" [] ⟨none, none, some 1⟩).1 "a" =
          some { r with version := r.version + 1, updated_at := 5 }) ∧
       (expected ≠ r.version →
        put (fun _ _ => ([], [])) none 5 stOneRecord "a" [] ⟨none, none, some 1⟩ =
          (stOneRecord, .error (.VersionMismatch expected r.version))))) ∧
    (lookupRecord stOneRecord "a" = none → (PutOptions.mk none none (some 1)).cas.isSome →
      put (fun _ _ => ([], [])) none 5 stOneRecord "a" [] ⟨none, none, some 1⟩ =
        (stOneRecord, .error (.NotFound "a"))) ∧
    (lookupRecord stOneRecord "a" = none → (PutOptions.mk none none (some 1)).cas = none →
      (put (fun _ _ => ([], [])) none 5 stOneRecord "a" [] ⟨none, none, some 1⟩).2 = .ok 1 ∧
      lookupRecord
        (put (fun _ _ => ([], [])) none 5 stOneRecord "a" [] ⟨none, none, some 1⟩).1 "a" =
        some ⟨1, none, 5, 5⟩) :=
  put_cas_semantics (fun _ _ => ([], [])) none 5 stOneRecord "a" [] ⟨none, none, some 1⟩ rfl

/-- C10: put on a soft-deleted path fails with the Deleted error — for any
options, in particular with no CAS — and leaves the whole state (records and
version rows) unchanged. -/
theorem put_deleted_rejected (encData : String → SecretData → Bytes × Bytes)
    (actor : Option String) (now : Nat) (st : SecretsState) (path : String)
    (data : SecretData) (options : PutOptions) (r : SecretRecord)
    (hv : validate_path path = .ok ()) (hr : lookupRecord st path = some r)
    (hdel : r.deleted_at.isSome) :
    put encData actor now st path data options = (st, .error (.Deleted path)) := by
  unfold put
  simp only [hv, hr]
  rw [if_pos hdel]

/-- Concrete state holding a soft-deleted record for path a. -/
def stDeleted : SecretsState :=
  ⟨[("a", ⟨3, some 50, 0, 10⟩)], [("a", ⟨3, [1], [2], none, none, 0, none⟩)]⟩

/-- Witness for C10 at a concrete soft-deleted record with cas = none. -/
theorem put_deleted_rejected_witness :
    put (fun _ _ => ([], [])) none 60 stDeleted "a" [] ⟨none, none, none⟩ =
      (stDeleted, .error (.Deleted "a")) :=
  put_deleted_rejected (fun _ _ => ([], [])) none 60 stDeleted "a" [] ⟨none, none, none⟩
    ⟨3, some 50, 0, 10⟩ rfl rfl rfl

/-- Wrapping u64 subtraction, the release-profile semantics of the
subtraction now - older_than in purge_deleted. -/
def u64Sub (a b : Nat) : Nat :=
  (a % 18446744073709551616 + (18446744073709551616 - b % 18446744073709551616)) %
    18446744073709551616

/-- The SQL selection predicate of purge_deleted: deleted_at IS NOT NULL AND
deleted_at < cutoff. -/
def purgeCond (cutoff : Nat) (r : SecretRecord) : Bool :=
  match r.deleted_at with
  | some d => decide (d < cutoff)
  | none => false

/-- SecretsEngine::purge_deleted (src/core/egide-secrets/src/lib.rs, lines
582-618): compute the cutoff with u64 subtraction, select the soft-deleted
paths strictly below it, delete their version rows and records, and return
the selected-path count (as u32). -/
def purge_deleted (now older_than : Nat) (st : SecretsState) : SecretsState × Nat :=
  let cutoff := u64Sub now older_than
  let purged := (st.records.filter (fun pr => purgeCond cutoff pr.2)).map Prod.fst
  (⟨st.records.filter (fun pr => !purgeCond cutoff pr.2),
    st.versions.filter (fun pv => !(purged.contains pv.1))⟩,
   purged.length % 4294967296)

/-- The purge selection as the C9 claim words it: exact integer arithmetic,
deleted_at strictly below now - older_than over the integers. -/
def purgeCondClaim (now older_than : Nat) (r : SecretRecord) : Bool :=
  match r.deleted_at with
  | some d => decide ((d : Int) < (now : Int) - (older_than : Int))
  | none => false

/-- purge_deleted as the C9 claim describes it, with the exact-arithmetic
cutoff. -/
def purge_deleted_claim (now older_than : Nat) (st : SecretsState) :
    SecretsState × Nat :=
  let purged :=
    (st.records.filter (fun pr => purgeCondClaim now older_than pr.2)).map Prod.fst
  (⟨st.records.filter (fun pr => !purgeCondClaim now older_than pr.2),
    st.versions.filter (fun pv => !(purged.contains pv.1))⟩,
   purged.length % 4294967296)

/-- State with one soft-deleted path used in the purge counterexample. -/
def stPurge : SecretsState :=
  ⟨[("a", ⟨1, some 50, 0, 0⟩)], [("a", ⟨1, [], [], none, none, 0, none⟩)]⟩

/-- Counterexample for C9 as stated: with now = 100 and older_than = 200, the
u64 subtraction 100 - 200 wraps to a huge cutoff, so the path soft-deleted at
time 50 is purged (count 1, record gone) although exact integer arithmetic,
as the claim demands, would give a negative cutoff and purge nothing. -/
theorem purge_deleted_wrap_divergence :
    (purge_deleted 100 200 stPurge).2 = 1 ∧
    (purge_deleted 100 200 stPurge).1.records = [] ∧
    (purge_deleted 100 200 stPurge).1.versions = [] ∧
    (purge_deleted_claim 100 200 stPurge).2 = 0 ∧
    (purge_deleted_claim 100 200 stPurge).1.records = stPurge.records ∧
    (purge_deleted_claim 100 200 stPurge).1.versions = stPurge.versions :=
  ⟨rfl, rfl, rfl, rfl, rfl, rfl⟩

theorem find?_none_of_key_not_mem (l : List (String × SecretRecord)) (p : String)
    (hp : ∀ q ∈ l, ¬ (q.1 == p) = true) :
    l.find? (fun pr => pr.1 == p) = none := by
  rw [List.find?_eq_none]
  exact hp

theorem find_filter_of_found (l : List (String × SecretRecord)) (p : String)
    (r : SecretRecord) (g : SecretRecord → Bool)
    (hnd : (l.map Prod.fst).Nodup)
    (h : (l.find? (fun pr => pr.1 == p)).map Prod.snd = some r) :
    ((l.filter (fun pr => g pr.2)).find? (fun pr => pr.1 == p)).map Prod.snd =
      if g r then some r else none := by
  induction l with
  | nil => exact Option.noConfusion h
  | cons hd tl ih =>
    have hnd1 : (tl.map Prod.fst).Nodup := (List.nodup_cons.mp hnd).2
    have hnmem : hd.1 ∉ tl.map Prod.fst := (List.nodup_cons.mp hnd).1
    by_cases hh : (hd.1 == p) = true
    · have hkey : hd.1 = p := by simpa using hh
      rw [List.find?_cons_of_pos (p := fun pr : String × SecretRecord => pr.1 == p) _ hh]
        at h
      have hr : r = hd.2 := by injection h with h; exact h.symm
      subst hr
      have hnone : (tl.filter (fun pr => g pr.2)).find? (fun pr => pr.1 == p) = none := by
        apply find?_none_of_key_not_mem
        intro q hq hqp
        apply hnmem
        have hq2 : q ∈ tl := List.mem_of_mem_filter hq
        have hqp2 : q.1 = p := by simpa using hqp
        rw [hkey, ← hqp2]
        exact List.mem_map_of_mem Prod.fst hq2
      cases hg : g hd.2 with
      | true =>
        simp only [List.filter_cons, hg, if_true]
        rw [List.find?_cons_of_pos (p := fun pr : String × SecretRecord => pr.1 == p) _ hh]
        simp
      | false =>
        simp only [List.filter_cons, hg, Bool.false_eq_true, if_false]
        rw [hnone]
        simp
    · rw [List.find?_cons_of_neg (p := fun pr : String × SecretRecord => pr.1 == p) _ hh]
        at h
      have hrec := ih hnd1 h
      cases hg : g hd.2 with
      | true =>
        simp only [List.filter_cons, hg, if_true]
        rw [List.find?_cons_of_neg (p := fun pr : String × SecretRecord => pr.1 == p) _ hh]
        exact hrec
      | false =>
        simp only [List.filter_cons, hg, Bool.false_eq_true, if_false]
        exact hrec

theorem contains_filter_of_found (l : List (String × SecretRecord)) (p : String)
    (r : SecretRecord) (g : SecretRecord → Bool)
    (hnd : (l.map Prod.fst).Nodup)
    (h : (l.find? (fun pr => pr.1 == p)).map Prod.snd = some r) :
    ((l.filter (fun pr => g pr.2)).map Prod.fst).contains p = g r := by
  induction l with
  | nil => exact Option.noConfusion h
  | cons hd tl ih =>
    have hnd1 : (tl.map Prod.fst).Nodup := (List.nodup_cons.mp hnd).2
    have hnmem : hd.1 ∉ tl.map Prod.fst := (List.nodup_cons.mp hnd).1
    by_cases hh : (hd.1 == p) = true
    · have hkey : hd.1 = p := by simpa using hh
      rw [List.find?_cons_of_pos (p := fun pr : String × SecretRecord => pr.1 == p) _ hh]
        at h
      have hr : r = hd.2 := by injection h with h; exact h.symm
      subst hr
      have hnc : ((tl.filter (fun pr => g pr.2)).map Prod.fst).contains p = false := by
        rw [List.contains_eq_any_beq, List.any_eq_false]
        intro q hq hqp
        apply hnmem
        simp only [List.mem_map] at hq
        obtain ⟨qr, hq1, hq2⟩ := hq
        have hmem : qr ∈ tl := List.mem_of_mem_filter hq1
        have hqp2 : p = q := by simpa using hqp
        rw [hkey, hqp2, ← hq2]
        exact List.mem_map_of_mem Prod.fst hmem
      cases hg : g hd.2 with
      | true =>
        simp only [List.filter_cons, hg, if_true, List.map_cons]
        simp [hkey]
      | false =>
        simp only [List.filter_cons, hg, Bool.false_eq_true, if_false]
        exact hnc
    · rw [List.find?_cons_of_neg (p := fun pr : String × SecretRecord => pr.1 == p) _ hh]
        at h
      have hrec := ih hnd1 h
      cases hg : g hd.2 with
      | true =>
        simp only [List.filter_cons, hg, if_true, List.map_cons]
        rw [List.contains_cons]
        have hkeyne : hd.1 ≠ p := by simpa using hh
        have hpb : (p == hd.1) = false :=
          beq_eq_false_iff_ne.mpr (fun he => hkeyne he.symm)
        rw [hpb]
        simpa using hrec
      | false =>
        simp only [List.filter_cons, hg, Bool.false_eq_true, if_false]
        exact hrec

theorem contains_filter_of_none (l : List (String × SecretRecord)) (p : String)
    (g : SecretRecord → Bool)
    (h : (l.find? (fun pr => pr.1 == p)).map Prod.snd = none) :
    ((l.filter (fun pr => g pr.2)).map Prod.fst).contains p = false := by
  have hn : l.find? (fun pr => pr.1 == p) = none := Option.map_eq_none'.mp h
  rw [List.find?_eq_none] at hn
  rw [List.contains_eq_any_beq, List.any_eq_false]
  intro q hq hqp
  simp only [List.mem_map] at hq
  obtain ⟨qr, hq1, hq2⟩ := hq
  have hmem : qr ∈ l := List.mem_of_mem_filter hq1
  apply hn qr hmem
  have hpq : p = q := by simpa using hqp
  rw [hq2, ← hpq]
  simp

theorem find_filter_of_none (l : List (String × SecretRecord)) (p : String)
    (g : SecretRecord → Bool)
    (h : (l.find? (fun pr => pr.1 == p)).map Prod.snd = none) :
    ((l.filter (fun pr => g pr.2)).find? (fun pr => pr.1 == p)).map Prod.snd = none := by
  have hn : l.find? (fun pr => pr.1 == p) = none := Option.map_eq_none'.mp h
  rw [List.find?_eq_none] at hn
  have hres : (l.filter (fun pr => g pr.2)).find? (fun pr => pr.1 == p) = none := by
    rw [List.find?_eq_none]
    intro q hq
    exact hn q (List.mem_of_mem_filter hq)
  rw [hres]
  rfl

theorem filter_not_contains_mem (vs : List (String × VersionRow)) (purged : List String)
    (p : String) (hc : purged.contains p = true) :
    ((vs.filter (fun pv => !(purged.contains pv.1))).filter
        (fun pv => pv.1 == p)).map Prod.snd = [] := by
  have hnil : ((vs.filter (fun pv => !(purged.contains pv.1))).filter
      (fun pv => pv.1 == p)) = [] := by
    rw [List.filter_eq_nil_iff]
    intro a ha hap
    have h1 : (!(purged.contains a.1)) = true := (List.mem_filter.mp ha).2
    have h2 : a.1 = p := by simpa using hap
    rw [h2, hc] at h1
    exact Bool.noConfusion h1
  rw [hnil]
  rfl

theorem filter_not_contains_not_mem (vs : List (String × VersionRow))
    (purged : List String) (p : String) (hc : purged.contains p = false) :
    ((vs.filter (fun pv => !(purged.contains pv.1))).filter
        (fun pv => pv.1 == p)).map Prod.snd =
      (vs.filter (fun pv => pv.1 == p)).map Prod.snd := by
  have h1 : ((vs.filter (fun pv => !(purged.contains pv.1))).filter
      (fun pv => pv.1 == p)) = vs.filter (fun pv => pv.1 == p) := by
    rw [List.filter_filter]
    apply List.filter_congr
    intro a _
    cases hap : (a.1 == p) with
    | true =>
      have ha : a.1 = p := by simpa using hap
      rw [ha, hc]
      rfl
    | false => simp [hap]
  rw [h1]

/-- Amended C9: purge_deleted hard-deletes the versions and records of
exactly those paths whose deleted_at is non-null and strictly below the
wrapping u64 difference u64Sub now older_than, leaves all other paths and
versions unchanged, and returns the number of paths purged (as u32).  When
older_than ≤ now this cutoff equals the exact difference; when older_than
exceeds the current Unix time the subtraction wraps to
now + 2^64 - older_than, a huge cutoff, so every soft-deleted path is purged
rather than none as exact integer arithmetic would give. -/
theorem purge_deleted_characterization (now older_than : Nat) (st : SecretsState)
    (hnow : now < 18446744073709551616) (hold : older_than < 18446744073709551616)
    (hkeys : (st.records.map Prod.fst).Nodup) :
    (∀ p r, lookupRecord st p = some r →
      lookupRecord (purge_deleted now older_than st).1 p =
        (if purgeCond (u64Sub now older_than) r then none else some r) ∧
      versionsOf (purge_deleted now older_than st).1 p =
        (if purgeCond (u64Sub now older_than) r then [] else versionsOf st p)) ∧
    (∀ p, lookupRecord st p = none →
      lookupRecord (purge_deleted now older_than st).1 p = none ∧
      versionsOf (purge_deleted now older_than st).1 p = versionsOf st p) ∧
    ((purge_deleted now older_than st).2 =
      (st.records.filter (fun pr => purgeCond (u64Sub now older_than) pr.2)).length %
        4294967296) ∧
    (older_than ≤ now → u64Sub now older_than = now - older_than) ∧
    (now < older_than →
      u64Sub now older_than = now + 18446744073709551616 - older_than) := by
  refine ⟨?_, ?_, ?_, ?_, ?_⟩
  · intro p r hr
    unfold lookupRecord at hr
    constructor
    · unfold lookupRecord purge_deleted
      dsimp only
      have hfind := find_filter_of_found st.records p r
        (fun q => !purgeCond (u64Sub now older_than) q) hkeys hr
      rw [hfind]
      cases hg : purgeCond (u64Sub now older_than) r <;> simp [hg]
    · unfold versionsOf purge_deleted
      dsimp only
      have hcont := contains_filter_of_found st.records p r
        (purgeCond (u64Sub now older_than)) hkeys hr
      cases hg : purgeCond (u64Sub now older_than) r with
      | true =>
        rw [hg] at hcont
        rw [filter_not_contains_mem _ _ _ hcont]
        simp
      | false =>
        rw [hg] at hcont
        rw [filter_not_contains_not_mem _ _ _ hcont]
        simp [versionsOf]
  · intro p hp
    unfold lookupRecord at hp
    constructor
    · unfold lookupRecord purge_deleted
      dsimp only
      exact find_filter_of_none st.records p
        (fun q => !purgeCond (u64Sub now older_than) q) hp
    · unfold versionsOf purge_deleted
      dsimp only
      have hcont := contains_filter_of_none st.records p
        (purgeCond (u64Sub now older_than)) hp
      rw [filter_not_contains_not_mem _ _ _ hcont]
  · unfold purge_deleted
    dsimp only
    rw [List.length_map]
  · intro hle
    unfold u64Sub
    omega
  · intro hlt
    unfold u64Sub
    omega

/-- Witness for C9 (amended) at a concrete state and a non-wrapping
duration. -/
theorem purge_deleted_characterization_witness :
    (∀ p r, lookupRecord stPurge p = some r →
      lookupRecord (purge_deleted 100 30 stPurge).1 p =
        (if purgeCond (u64Sub 100 30) r then none else some r) ∧
      versionsOf (purge_deleted 100 30 stPurge).1 p =
        (if purgeCond (u64Sub 100 30) r then [] else versionsOf stPurge p)) ∧
    (∀ p, lookupRecord stPurge p = none →
      lookupRecord (purge_deleted 100 30 stPurge).1 p = none ∧
      versionsOf (purge_deleted 100 30 stPurge).1 p = versionsOf stPurge p) ∧
    ((purge_deleted 100 30 stPurge).2 =
      (stPurge.records.filter (fun pr => purgeCond (u64Sub 100 30) pr.2)).length %
        4294967296) ∧
    (30 ≤ 100 → u64Sub 100 30 = 100 - 30) ∧
    (100 < 30 → u64Sub 100 30 = 100 + 18446744073709551616 - 30) :=
  purge_deleted_characterization 100 30 stPurge (by decide) (by decide) (by decide)

/-- Error type of the egide-transit crate
(src/core/egide-transit/src/error.rs); string and name payloads elided,
version payloads kept. -/
inductive TransitError where
  | KeyNotFound
  | KeyExists
  | VersionNotFound
  | VersionBelowMinEncryption (version min : Nat)
  | VersionBelowMinDecryption (version min : Nat)
  | InvalidCiphertext
  | DecryptionFailed
  | OperationNotAllowed
  | InvalidKeyName
  | InvalidKeyType
  | NotExportable
  | DeletionNotAllowed
  | Storage
  | Crypto
deriving DecidableEq

/-- Break a character list at its first colon (one step of Rust
str::splitn(3, ':')). -/
def splitFirstColon : List Char → Option (List Char × List Char)
  | [] => none
  | c :: rest =>
    if c = ':' then some ([], rest)
    else (splitFirstColon rest).map (fun pr => (c :: pr.1, pr.2))

/-- Rust ciphertext.splitn(3, ':').collect::<Vec<_>>(): at most three
parts, the last part keeping any remaining colons. -/
def splitn3 (s : List Char) : List (List Char) :=
  match splitFirstColon s with
  | none => [s]
  | some (a, r) =>
    match splitFirstColon r with
    | none => [a, r]
    | some (b, r2) => [a, b, r2]

/-- Value of a decimal digit string. -/
def digitsToNat (ds : List Char) : Nat :=
  ds.foldl (fun a c => a * 10 + (c.toNat - 48)) 0

/-- Sign handling of Rust u32::from_str: a single leading plus sign is
stripped (a minus sign is left in place and later rejected as a non-digit
for the unsigned target). -/
def stripPlus (s : List Char) : List Char :=
  match s with
  | c :: rest => if c = '+' then rest else s
  | [] => s

/-- Modelled from the spec: Rust str::parse::<u32> as called by
parse_ciphertext — an optional leading plus sign, then one or more ASCII
decimal digits, rejecting values of 2^32 and above. -/
def parseU32 (s : List Char) : Option Nat :=
  if stripPlus s = [] then none
  else if (stripPlus s).all (fun c => c.isDigit) then
    if digitsToNat (stripPlus s) < 4294967296 then some (digitsToNat (stripPlus s))
    else none
  else none

/-- Value of a standard-alphabet base64 character. -/
def b64Val (c : Char) : Option Nat :=
  let n := c.toNat
  if 65 ≤ n ∧ n ≤ 90 then some (n - 65)
  else if 97 ≤ n ∧ n ≤ 122 then some (n - 97 + 26)
  else if 48 ≤ n ∧ n ≤ 57 then some (n - 48 + 52)
  else if c = '+' then some 62
  else if c = '/' then some 63
  else none

/-- Modelled from the spec: final four-character group of the external
base64 crate's STANDARD engine, allowing one or two padding characters and
requiring the unused trailing bits to be zero (canonical decoding). -/
def b64FinalChunk (a b c d : Char) : Option Bytes :=
  match b64Val a, b64Val b with
  | some va, some vb =>
    if c = '=' then
      if d = '=' then
        if vb % 16 = 0 then some [va * 4 + vb / 16] else none
      else none
    else
      match b64Val c with
      | some vc =>
        if d = '=' then
          if vc % 4 = 0 then some [va * 4 + vb / 16, (vb % 16) * 16 + vc / 4] else none
        else
          match b64Val d with
          | some vd =>
            some [va * 4 + vb / 16, (vb % 16) * 16 + vc / 4, (vc % 4) * 64 + vd]
          | none => none
      | none => none
  | _, _ => none

/-- Modelled from the spec: decoding of the external base64 crate's
STANDARD engine — four-character groups, padding only in the final group,
canonical length. -/
def base64Decode : List Char → Option Bytes
  | [] => some []
  | a :: b :: c :: d :: rest =>
    if rest = [] then b64FinalChunk a b c d
    else
      match b64Val a, b64Val b, b64Val c, b64Val d, base64Decode rest with
      | some va, some vb, some vc, some vd, some tail =>
        some ([va * 4 + vb / 16, (vb % 16) * 16 + vc / 4, (vc % 4) * 64 + vd] ++ tail)
      | _, _, _, _, _ => none
  | _ => none

/-- TransitEngine::parse_ciphertext (src/core/egide-transit/src/lib.rs,
lines 724-743). -/
def parse_ciphertext (s : List Char) : Except TransitError (Nat × Bytes) :=
  match splitn3 s with
  | [p0, p1, p2] =>
    if p0 ≠ "egide".toList then .error .InvalidCiphertext
    else
      match p1 with
      | 'v' :: rest =>
        match parseU32 rest with
        | some version =>
          match base64Decode p2 with
          | some d => .ok (version, d)
          | none => .error .InvalidCiphertext
        | none => .error .InvalidCiphertext
      | _ => .error .InvalidCiphertext
  | _ => .error .InvalidCiphertext

/-- The middle-part pattern as the C7 claim states it: the letter v
followed only by decimal digits, within u32 range. -/
def vDigitsPattern (m : List Char) : Prop :=
  ∃ ds, m = 'v' :: ds ∧ ds ≠ [] ∧ (∀ c ∈ ds, c.isDigit = true) ∧
    digitsToNat ds < 4294967296

/-- Counterexample for C7 as stated: the input whose middle part is v+1 does
not match the claim's pattern v followed only by digits, yet parsing
succeeds with version 1 (and the empty payload), because Rust's u32 parser
accepts a leading plus sign. -/
theorem parse_ciphertext_plus_sign :
    parse_ciphertext ("egide:v+1:".toList) = .ok (1, []) ∧
    "egide:v+1:".toList =
      ['e', 'g', 'i', 'd', 'e', ':', 'v', '+', '1', ':'] ∧
    ¬ vDigitsPattern ['v', '+', '1'] := by
  refine ⟨rfl, by decide, ?_⟩
  rintro ⟨ds, hds, hne, hdig, hlt⟩
  have hd : ds = ['+', '1'] := by
    injection hds with h1 h2
    exact h2.symm
  subst hd
  have := hdig '+' (by simp)
  simp at this

theorem parseU32_some_iff (r : List Char) (v : Nat) :
    parseU32 r = some v ↔
      ∃ sgn ds, (sgn = [] ∨ sgn = ['+']) ∧ r = sgn ++ ds ∧ ds ≠ [] ∧
        (∀ c ∈ ds, c.isDigit = true) ∧ digitsToNat ds = v ∧ v < 4294967296 := by
  have core : ∀ ds : List Char,
      ((if ds = [] then none
        else if ds.all (fun c => c.isDigit) then
          (if digitsToNat ds < 4294967296 then some (digitsToNat ds) else none)
        else none) = some v) ↔
      (ds ≠ [] ∧ (∀ c ∈ ds, c.isDigit = true) ∧ digitsToNat ds = v ∧
        v < 4294967296) := by
    intro ds
    split_ifs with h1 h2 h3
    · constructor
      · intro h; exact absurd h (by simp)
      · intro ⟨hne, _, _, _⟩; exact absurd h1 hne
    · constructor
      · intro h
        injection h with h
        exact ⟨h1, fun c hc => (List.all_eq_true.mp h2) c hc, h, h ▸ h3⟩
      · intro ⟨_, _, hval, _⟩
        rw [hval]
    · constructor
      · intro h; exact absurd h (by simp)
      · intro ⟨_, _, hval, hlt⟩
        rw [hval] at h3
        exact absurd hlt h3
    · constructor
      · intro h; exact absurd h (by simp)
      · intro ⟨_, hdig, _, _⟩
        exact absurd (List.all_eq_true.mpr hdig) h2
  cases r with
  | nil =>
    constructor
    · intro h; exact absurd h (by simp [parseU32, stripPlus])
    · rintro ⟨sgn, ds, hsgn, happ, hne, -, -, -⟩
      exfalso
      rcases hsgn with h | h <;> subst h
      · simp only [List.nil_append] at happ
        exact hne happ.symm
      · simp at happ
  | cons c rest =>
    by_cases hc : c = '+'
    · subst hc
      have hs : stripPlus ('+' :: rest) = rest := by simp [stripPlus]
      unfold parseU32
      rw [hs, core rest]
      constructor
      · intro ⟨hne, hdig, hval, hlt⟩
        exact ⟨['+'], rest, Or.inr rfl, rfl, hne, hdig, hval, hlt⟩
      · rintro ⟨sgn, ds, hsgn, happ, hne, hdig, hval, hlt⟩
        rcases hsgn with h | h <;> subst h
        · simp only [List.nil_append] at happ
          subst happ
          have := hdig '+' (by simp)
          simp at this
        · simp only [List.cons_append, List.nil_append, List.cons.injEq] at happ
          obtain ⟨-, h2⟩ := happ
          subst h2
          exact ⟨hne, hdig, hval, hlt⟩
    · have hs : stripPlus (c :: rest) = c :: rest := by simp [stripPlus, hc]
      unfold parseU32
      rw [hs, core (c :: rest)]
      constructor
      · intro ⟨hne, hdig, hval, hlt⟩
        exact ⟨[], c :: rest, Or.inl rfl, rfl, hne, hdig, hval, hlt⟩
      · rintro ⟨sgn, ds, hsgn, happ, hne, hdig, hval, hlt⟩
        rcases hsgn with h | h <;> subst h
        · simp only [List.nil_append] at happ
          subst happ
          exact ⟨hne, hdig, hval, hlt⟩
        · simp only [List.cons_append, List.nil_append, List.cons.injEq] at happ
          exact absurd happ.1 hc

theorem parse_ciphertext_error_invalid (s : List Char) (e : TransitError)
    (h : parse_ciphertext s = .error e) : e = .InvalidCiphertext := by
  unfold parse_ciphertext at h
  split at h
  · split at h
    · injection h with h; exact h.symm
    · split at h
      · split at h
        · split at h
          · exact absurd h (by simp)
          · injection h with h; exact h.symm
        · injection h with h; exact h.symm
      · injection h with h; exact h.symm
  · injection h with h; exact h.symm

/-- Amended C7: splitting the input on ':' into at most 3 parts, parsing
succeeds with version v and payload d exactly when there are three parts,
the first is "egide", the middle is 'v' followed by a string accepted by
Rust's u32 parser — one or more decimal digits optionally preceded by a
plus sign (so v+1 is accepted, beyond the claim's v[0-9]+ pattern), with
value below 2^32 — and the last part is valid standard base64 decoding to
d; in every other case parsing fails with InvalidCiphertext. -/
theorem parse_ciphertext_characterization (s : List Char) :
    (∀ v d, parse_ciphertext s = .ok (v, d) ↔
      ∃ m t r, splitn3 s = ["egide".toList, m, t] ∧ m = 'v' :: r ∧
        (∃ sgn ds, (sgn = [] ∨ sgn = ['+']) ∧ r = sgn ++ ds ∧ ds ≠ [] ∧
          (∀ c ∈ ds, c.isDigit = true) ∧ digitsToNat ds = v ∧ v < 4294967296) ∧
        base64Decode t = some d) ∧
    ((¬ ∃ v d, parse_ciphertext s = .ok (v, d)) →
      parse_ciphertext s = .error .InvalidCiphertext) := by
  constructor
  · intro v d
    constructor
    · intro h
      unfold parse_ciphertext at h
      split at h
      · rename_i p0 p1 p2 heq
        split at h
        · exact absurd h (by simp)
        · rename_i hp0
          simp only [ne_eq, not_not] at hp0
          split at h
          · rename_i rest
            split at h
            · rename_i version hu
              split at h
              · rename_i dd hb
                injection h with h
                injection h with h1 h2
                subst h1
                subst h2
                refine ⟨'v' :: rest, p2, rest, ?_, rfl, ?_, hb⟩
                · rw [heq, hp0]
                · exact (parseU32_some_iff rest version).mp hu
              · exact absurd h (by simp)
            · exact absurd h (by simp)
          · exact absurd h (by simp)
      · exact absurd h (by simp)
    · rintro ⟨m, t, r, hsp, hm, hpat, hb⟩
      have hu : parseU32 r = some v := (parseU32_some_iff r v).mpr hpat
      unfold parse_ciphertext
      rw [hsp]
      subst hm
      simp only [ne_eq, not_true_eq_false, if_false, ite_false]
      rw [hu, hb]
  · intro hne
    cases hval : parse_ciphertext s with
    | ok p =>
      exfalso
      exact hne ⟨p.1, p.2, by rw [hval]⟩
    | error e =>
      rw [parse_ciphertext_error_invalid s e hval]


/-- Witness for C7 (amended): a well-formed ciphertext string decomposes as
the characterization states, and a malformed version part yields
InvalidCiphertext. -/
theorem parse_ciphertext_characterization_witness :
    (∃ m t r, splitn3 ("egide:v2:AAAA".toList) = ["egide".toList, m, t] ∧
      m = 'v' :: r ∧
      (∃ sgn ds, (sgn = [] ∨ sgn = ['+']) ∧ r = sgn ++ ds ∧ ds ≠ [] ∧
        (∀ c ∈ ds, c.isDigit = true) ∧ digitsToNat ds = 2 ∧ 2 < 4294967296) ∧
      base64Decode t = some [0, 0, 0]) ∧
    parse_ciphertext ("egide:vx:".toList) = .error .InvalidCiphertext :=
  ⟨((parse_ciphertext_characterization ("egide:v2:AAAA".toList)).1 2 [0, 0, 0]).mp rfl,
   (parse_ciphertext_characterization ("egide:vx:".toList)).2
     (by rintro ⟨v, d, h⟩; exact Except.noConfusion h)⟩

end Egide
